import Mathlib

/-!
Shallow embedding of the mAP evaluation core of `compute_mAP.py`
(CenterNet evaluation script).  Python floats are modelled by `ℚ`,
image file names by `ℕ`, box coordinate strings by a `Box` record of
the four parsed coordinates.  In-place list mutation is modelled by
explicit state passing; the aliasing of `image_gt_records` into
`gt_records` in `calc_AP` is modelled by tracking original indices of
the filtered sub-list (`idxFilter`) and writing back through them.
-/

/-- Python's builtin `max` on two rationals, written so that concrete
instances reduce inside the kernel. -/
def qmax (a b : ℚ) : ℚ := if a ≤ b then b else a

/-- Python's builtin `min` on two rationals. -/
def qmin (a b : ℚ) : ℚ := if a ≤ b then a else b

/-- A bounding box in `(xmin, ymin, xmax, ymax)` format, the parse of the
coordinate string used throughout the script. -/
structure Box where
  xmin : ℚ
  ymin : ℚ
  xmax : ℚ
  ymax : ℚ
deriving DecidableEq

/-- A ground-truth record as produced by `annotation_parse`:
`['image_file', 'xmin,ymin,xmax,ymax']`. -/
structure GtBase where
  image : ℕ
  box : Box
deriving DecidableEq

/-- A ground-truth record inside `calc_AP`, after the usage flag was
appended: `['image_file', 'xmin,ymin,xmax,ymax', 'usage']`.
`used = false` models the string `'unused'`. -/
structure GtRecord where
  image : ℕ
  box : Box
  used : Bool
deriving DecidableEq

/-- A prediction record `['image_file', 'xmin,ymin,xmax,ymax', score]`. -/
structure PredRecord where
  image : ℕ
  box : Box
  score : ℚ
deriving DecidableEq

/-- `box_iou(pred_box, gt_box)` from `compute_mAP.py` lines 263-281.
The intersection rectangle is max of mins / min of maxes; no clamping of
negative widths or heights is performed; returns `0` when the union area
is `0` and the plain ratio otherwise. -/
def box_iou (pred_box gt_box : Box) : ℚ :=
  let inter_xmin := qmax pred_box.xmin gt_box.xmin
  let inter_ymin := qmax pred_box.ymin gt_box.ymin
  let inter_xmax := qmin pred_box.xmax gt_box.xmax
  let inter_ymax := qmin pred_box.ymax gt_box.ymax
  let pred_area := (pred_box.xmax - pred_box.xmin) * (pred_box.ymax - pred_box.ymin)
  let gt_area := (gt_box.xmax - gt_box.xmin) * (gt_box.ymax - gt_box.ymin)
  let inter_area := (inter_xmax - inter_xmin) * (inter_ymax - inter_ymin)
  let union_area := pred_area + gt_area - inter_area
  if union_area = 0 then 0 else inter_area / union_area

/-- The scan loop of `match_gt_box` (lines 308-317): walk the candidate
list with `enumerate`, keeping `(max_iou, max_index)`; the accumulator is
updated when `iou > max_iou and gt_record[2] == 'unused' and
pred_record[0] == gt_record[0]`.  `n` is the enumeration counter. -/
def match_scan (pred : PredRecord) : List GtRecord → ℕ → ℚ → ℤ → ℚ × ℤ
  | [], _, max_iou, max_index => (max_iou, max_index)
  | g :: gs, n, max_iou, max_index =>
      if max_iou < box_iou pred.box g.box ∧ g.used = false ∧ pred.image = g.image then
        match_scan pred gs (n + 1) (box_iou pred.box g.box) (n : ℤ)
      else
        match_scan pred gs (n + 1) max_iou max_index

/-- `match_gt_box(pred_record, gt_records, iou_threshold)` (lines 284-323):
runs the scan starting from `max_iou = 0.0`, `max_index = -1`, then drops
the result (`max_index = -1`) when `max_iou < iou_threshold`. -/
def match_gt_box (pred : PredRecord) (gt_records : List GtRecord) (iou_threshold : ℚ) : ℤ :=
  let r := match_scan pred gt_records 0 0 (-1)
  if r.1 < iou_threshold then -1 else r.2

/-- Model of `image_gt_records[i][2] = 'used'` writing through the list
alias back into `gt_records`: set the usage flag of the record at
position `o` of the full list (no-op when `o` is out of range). -/
def markUsed : List GtRecord → ℕ → List GtRecord
  | [], _ => []
  | g :: gs, 0 => ⟨g.image, g.box, true⟩ :: gs
  | g :: gs, o + 1 => g :: markUsed gs o

/-- The filtered view `[gt for gt in gt_records if gt[0] == pred[0]]`
together with the original position of every kept record, used to model
the aliasing of the Python sub-list into the full list. `n` is the
position of the head of the remaining list. -/
def idxFilter (p : GtRecord → Bool) : List GtRecord → ℕ → List (ℕ × GtRecord)
  | [], _ => []
  | g :: gs, n => if p g then (n, g) :: idxFilter p gs (n + 1) else idxFilter p gs (n + 1)

/-- One iteration of the assignment loop of `calc_AP` (lines 589-605):
filter the ground-truth records of the prediction's image, search a match
with `match_gt_box`, and on success flip the matched record's flag to
`'used'` through the alias.  Returns the new state of `gt_records` and
the original index of the matched record (`none` models `i == -1`). -/
def assignStep (gts : List GtRecord) (pred : PredRecord) (thr : ℚ) : List GtRecord × Option ℕ :=
  let pairs := idxFilter (fun g => g.image == pred.image) gts 0
  let i := match_gt_box pred (pairs.map Prod.snd) thr
  if i = -1 then (gts, none)
  else
    let o := (pairs.map Prod.fst).getD i.toNat gts.length
    (markUsed gts o, some o)

/-- The whole `for idx, pred_record in enumerate(pred_records)` loop of
`calc_AP`: threads the ground-truth state through `assignStep` and records
for every prediction the matched ground-truth index (`some o`, in which
case `true_positive[idx] = 1`) or `none` (`false_positive[idx] = 1`). -/
def assignLoop (thr : ℚ) : List GtRecord → List PredRecord → List GtRecord × List (Option ℕ)
  | gts, [] => (gts, [])
  | gts, p :: ps =>
      let s := assignStep gts p thr
      let r := assignLoop thr s.1 ps
      (r.1, s.2 :: r.2)

/-- `gt_records = [gt_record + ['unused'] for gt_record in gt_records]`
(line 581): every record starts with the `'unused'` flag. -/
def initFlags (l : List GtBase) : List GtRecord :=
  l.map (fun g => ⟨g.image, g.box, false⟩)

/-- The in-place cumulative-sum loops of `get_rec_prec` (lines 397-405):
`for idx, val in enumerate(l): l[idx] += cumsum; cumsum += val` with
accumulator `acc`. -/
def cumsum : List ℕ → ℕ → List ℕ
  | [], _ => []
  | x :: xs, acc => (x + acc) :: cumsum xs (acc + x)

/-- The recall loop `rec[idx] = float(true_positive[idx]) / len(gt_records)`
over the cumulated true-positive list. -/
def divAll (l : List ℕ) (n : ℚ) : List ℚ :=
  l.map (fun t : ℕ => (t : ℚ) / n)

/-- The precision loop
`prec[idx] = float(true_positive[idx]) / (false_positive[idx] + true_positive[idx])`
walking the two cumulated lists in parallel.  Division here is total
rational division, which collapses the `ZeroDivisionError` the source
raises on a zero denominator into the value `0`; `precListE` below is
the faithful fallible model of the same loop, and statements about the
values of this list are only claimed on inputs where `precListE`
succeeds (for the flag lists `calc_AP` builds the denominator at index
`i` is `i + 1`, so there the two models agree everywhere). -/
def precList : List ℕ → List ℕ → List ℚ
  | t :: ts, f :: fs => ((t : ℚ) / ((f : ℚ) + (t : ℚ))) :: precList ts fs
  | _, _ => []

/-- The same precision loop with Python's fallible division made
explicit: `none` models the `ZeroDivisionError` raised as soon as some
denominator `false_positive[idx] + true_positive[idx]` is zero, in
which case `get_rec_prec` returns nothing at all. -/
def precListE : List ℕ → List ℕ → Option (List ℚ)
  | t :: ts, f :: fs =>
      if f + t = 0 then none
      else
        match precListE ts fs with
        | none => none
        | some rest => some (((t : ℚ) / ((f : ℚ) + (t : ℚ))) :: rest)
  | _, _ => some []

/-- `get_rec_prec(true_positive, false_positive, gt_records)`
(lines 392-415): cumulate both flag lists in place, then build the recall
and precision sequences. -/
def get_rec_prec (true_positive false_positive : List ℕ) (gt_records : List GtRecord) :
    List ℚ × List ℚ :=
  let fp := cumsum false_positive 0
  let tp := cumsum true_positive 0
  (divAll tp (gt_records.length : ℚ), precList tp fp)

/-- The backwards sweep `for i in range(len(mpre) - 2, -1, -1):
mpre[i] = max(mpre[i], mpre[i + 1])` (lines 350-351): each position is
replaced by the max of itself and the already-updated successor. -/
def envelope : List ℚ → List ℚ
  | [] => []
  | x :: xs =>
      match envelope xs with
      | [] => [x]
      | y :: t => qmax x y :: y :: t

/-- The accumulation `for i in i_list: ap += (mrec[i] - mrec[i-1]) * mpre[i]`
(lines 356-367), where `i_list` holds the indices `i ≥ 1` with
`mrec[i] != mrec[i-1]`: walk the two lists over adjacent positions. -/
def ap_sum : List ℚ → List ℚ → ℚ
  | a :: b :: rs, _ :: q :: qs => (if b ≠ a then (b - a) * q else 0) + ap_sum (b :: rs) (q :: qs)
  | _, _ => 0

/-- `voc_ap(rec, prec)` (lines 325-368).  The function mutates its
arguments: `rec.insert(0, 0.0); rec.append(1.0)` and
`prec.insert(0, 0.0); prec.append(0.0)`; `mrec` is a copy of the mutated
`rec`, `mpre` is a copy of the mutated `prec` which the backwards sweep
then updates in place.  The first component holds the returned
`(ap, mrec, mpre)`; the second component holds the final contents of the
caller's `rec` and `prec` lists (the frame effect of the call). -/
def voc_ap (rec prec : List ℚ) : (ℚ × List ℚ × List ℚ) × List ℚ × List ℚ :=
  let rec1 := (rec.insertIdx 0 0) ++ [1]
  let mrec := rec1
  let prec1 := (prec.insertIdx 0 0) ++ [0]
  let mpre := envelope prec1
  ((ap_sum mrec mpre, mrec, mpre), rec1, prec1)

/-- `calc_AP(gt_records, pred_records, class_name)` (lines 560-612) with
the plotting call dropped: append the usage flags, run the assignment
loop (with the hard-coded `iou_threshold=0.5` of line 593), derive the
0/1 true-positive and false-positive lists, compute recall/precision and
feed them to `voc_ap`.  Returns `(ap, true_positive_count)`. -/
def calc_AP (gt_records : List GtBase) (pred_records : List PredRecord) : ℚ × ℕ :=
  let gts := initFlags gt_records
  let r := assignLoop (1/2) gts pred_records
  let flags := r.2.map Option.isSome
  let true_positive := flags.map (fun b => if b then 1 else 0)
  let false_positive := flags.map (fun b => if b then 0 else 1)
  let rp := get_rec_prec true_positive false_positive r.1
  ((voc_ap rp.1 rp.2).1.1, r.2.countP (fun o => o.isSome))

/-- The per-class body of the AP loop of `compute_mAP` (lines 625-634):
`gt_records = gt_classes_records[class_name]` is a plain dictionary
lookup and raises `KeyError` (modelled by `none`) when the class has no
ground-truth entry; only afterwards is the class checked against the
prediction dictionary, a missing class getting `AP = 0` directly. -/
def classAP (gtm : ℕ → Option (List GtBase)) (predm : ℕ → Option (List PredRecord))
    (c : ℕ) : Option ℚ :=
  match gtm c with
  | none => none
  | some gt =>
      some (match predm c with
            | none => 0
            | some ps => (calc_AP gt ps).1)

/-- The AP dictionary of `compute_mAP`: one entry per vocabulary class, in
order; `none` when the loop raises on some class. -/
def compute_APs (gtm : ℕ → Option (List GtBase)) (predm : ℕ → Option (List PredRecord)) :
    List ℕ → Option (List ℚ)
  | [] => some []
  | c :: cs =>
      match classAP gtm predm c with
      | none => none
      | some a =>
          match compute_APs gtm predm cs with
          | none => none
          | some rest => some (a :: rest)

/-- `mAP = np.mean(list(APs.values())) * 100` (line 637): the arithmetic
mean of the per-class AP values, as a percentage. -/
def compute_mAP (gtm : ℕ → Option (List GtBase)) (predm : ℕ → Option (List PredRecord))
    (class_names : List ℕ) : Option ℚ :=
  (compute_APs gtm predm class_names).map (fun aps => aps.sum / (aps.length : ℚ) * 100)

/-- Eligibility of a ground-truth candidate for a prediction inside the
scan of `match_gt_box`: still `'unused'` and from the same image. -/
def elig (pred : PredRecord) (g : GtRecord) : Prop :=
  g.used = false ∧ pred.image = g.image

instance (pred : PredRecord) (g : GtRecord) : Decidable (elig pred g) := by
  unfold elig; infer_instance

/-- Well-formedness of a box as the spec states it: `xmax ≥ xmin` and
`ymax ≥ ymin`. -/
def WellFormedBox (b : Box) : Prop :=
  b.xmin ≤ b.xmax ∧ b.ymin ≤ b.ymax

theorem qmax_eq_max (a b : ℚ) : qmax a b = max a b := (max_def a b).symm

theorem qmin_eq_min (a b : ℚ) : qmin a b = min a b := (min_def a b).symm

/-- C2 counterexample: the two unit boxes at `(0,0,1,1)` and `(2,2,3,3)` are
well-formed and disjoint (separated along both axes), yet `box_iou`
returns `1`, not `0`: the unclamped negative intersection width and
height multiply to a positive "intersection area" equal to the union. -/
theorem box_iou_disjoint_counterexample :
    WellFormedBox ⟨0, 0, 1, 1⟩ ∧ WellFormedBox ⟨2, 2, 3, 3⟩ ∧
    (Box.xmax ⟨0, 0, 1, 1⟩ ≤ Box.xmin ⟨2, 2, 3, 3⟩) ∧
    (Box.ymax ⟨0, 0, 1, 1⟩ ≤ Box.ymin ⟨2, 2, 3, 3⟩) ∧
    box_iou ⟨0, 0, 1, 1⟩ ⟨2, 2, 3, 3⟩ = 1 := by
  refine ⟨⟨by norm_num, by norm_num⟩, ⟨by norm_num, by norm_num⟩, by norm_num, by norm_num, ?_⟩
  norm_num [box_iou, qmax, qmin]

/-- C2 (amended): for well-formed boxes whose intersection rectangle is
degenerate (zero width or zero height, i.e. touching or just separated by
a shared boundary line), `box_iou` returns `0`; strictly separated boxes
can return negative or even positive values instead, since the code never
clamps the intersection dimensions. -/
theorem box_iou_touching_eq_zero (p g : Box)
    (hp : WellFormedBox p) (hg : WellFormedBox g)
    (h : qmin p.xmax g.xmax = qmax p.xmin g.xmin ∨ qmin p.ymax g.ymax = qmax p.ymin g.ymin) :
    box_iou p g = 0 := by
  unfold box_iou
  rcases h with h | h <;> rw [h] <;> simp

/-- Witness for C2's amended theorem: boxes `(0,0,1,1)` and `(1,0,2,1)`
share the edge `x = 1` and get IoU `0`. -/
theorem box_iou_touching_eq_zero_witness :
    box_iou ⟨0, 0, 1, 1⟩ ⟨1, 0, 2, 1⟩ = 0 :=
  box_iou_touching_eq_zero ⟨0, 0, 1, 1⟩ ⟨1, 0, 2, 1⟩
    ⟨by norm_num, by norm_num⟩ ⟨by norm_num, by norm_num⟩
    (Or.inl (by norm_num [qmin, qmax]))

/-- C10: `voc_ap` mutates the caller's `rec` and `prec` lists: afterwards
they hold `0.0 :: rec ++ [1.0]` and `0.0 :: prec ++ [0.0]`; the returned
`mrec` is exactly the mutated `rec` (a copy taken after the mutation) and
the returned `mpre` is the envelope sweep of the mutated `prec`; neither
argument list is left unchanged. -/
theorem voc_ap_frame_effect (rec prec : List ℚ) :
    (voc_ap rec prec).2.1 = 0 :: rec ++ [1] ∧
    (voc_ap rec prec).2.2 = 0 :: prec ++ [0] ∧
    (voc_ap rec prec).1.2.1 = (voc_ap rec prec).2.1 ∧
    (voc_ap rec prec).1.2.2 = envelope ((voc_ap rec prec).2.2) ∧
    (voc_ap rec prec).2.1 ≠ rec ∧
    (voc_ap rec prec).2.2 ≠ prec := by
  refine ⟨by simp [voc_ap], by simp [voc_ap], rfl, by simp [voc_ap], ?_, ?_⟩ <;>
    · intro hcon
      have := congrArg List.length hcon
      simp [voc_ap] at this
      omega

/-- Witness for C10 at a concrete input. -/
theorem voc_ap_frame_effect_witness :
    (voc_ap [1] [1]).2.1 = 0 :: [1] ++ [1] :=
  (voc_ap_frame_effect [1] [1]).1

/-- Spec-side reading of the envelope sweep: position `i` of the swept
list holds the maximum of the original values from position `i` to the
end (the monotonically non-increasing precision envelope). -/
def spec_suffix_max (l : List ℚ) (i : ℕ) : ℚ :=
  match l.drop i with
  | [] => 0
  | x :: xs => xs.foldl max x

/-- Spec-side envelope: the list of suffix maxima. -/
def spec_envelope (l : List ℚ) : List ℚ :=
  (List.range l.length).map (spec_suffix_max l)

/-- Spec-side AP: the sum over all indices `i ≥ 1` where the recall
changes of `(mrec[i] - mrec[i-1]) * mpre[i]`. -/
def spec_ap (mrec mpre : List ℚ) : ℚ :=
  Finset.sum (Finset.range mrec.length) (fun i =>
    if 1 ≤ i ∧ mrec.getD i 0 ≠ mrec.getD (i - 1) 0
    then (mrec.getD i 0 - mrec.getD (i - 1) 0) * mpre.getD i 0 else 0)

theorem foldl_max_assoc (l : List ℚ) : ∀ a b : ℚ, l.foldl max (max a b) = max a (l.foldl max b) := by
  induction l with
  | nil => intro a b; rfl
  | cons c t ih =>
      intro a b
      simp only [List.foldl_cons, max_assoc, ih]

theorem envelope_length (l : List ℚ) : (envelope l).length = l.length := by
  induction l with
  | nil => rfl
  | cons x xs ih =>
      unfold envelope
      cases h : envelope xs with
      | nil => rw [h] at ih; simp [← ih]
      | cons y t => rw [h] at ih; simp [← ih]

theorem envelope_getElem? (l : List ℚ) : ∀ i : ℕ,
    (envelope l)[i]? = if i < l.length then some (spec_suffix_max l i) else none := by
  induction l with
  | nil => intro i; simp [envelope]
  | cons x xs ih =>
      intro i
      unfold envelope
      cases h : envelope xs with
      | nil =>
          have hxs : xs = [] := by
            have := envelope_length xs
            rw [h] at this
            exact List.length_eq_zero.mp this.symm
          subst hxs
          match i with
          | 0 => simp [spec_suffix_max]
          | i + 1 => simp
      | cons y t =>
          have hxs : xs ≠ [] := by
            intro hcon
            subst hcon
            simp [envelope] at h
          match i with
          | 0 =>
              obtain ⟨x', xs', rfl⟩ := List.exists_cons_of_ne_nil hxs
              have h0 := ih 0
              rw [h] at h0
              simp only [List.getElem?_cons_zero, List.length_cons, Nat.zero_lt_succ,
                if_true] at h0
              have hy : y = spec_suffix_max (x' :: xs') 0 := by
                injection h0
              simp only [List.getElem?_cons_zero, List.length_cons, Nat.zero_lt_succ, if_true]
              rw [hy]
              simp only [spec_suffix_max, List.drop_zero]
              rw [qmax_eq_max]
              rw [List.foldl_cons, foldl_max_assoc]
          | i + 1 =>
              have hi := ih i
              rw [h] at hi
              simp only [List.getElem?_cons_succ]
              rw [hi]
              have : spec_suffix_max (x :: xs) (i + 1) = spec_suffix_max xs i := by
                simp [spec_suffix_max, List.drop_succ_cons]
              simp [this]

theorem envelope_eq_spec (l : List ℚ) : envelope l = spec_envelope l := by
  apply List.ext_getElem?
  intro i
  rw [envelope_getElem?]
  unfold spec_envelope
  rw [List.getElem?_map]
  by_cases h : i < l.length
  · rw [List.getElem?_range h]
    simp [h]
  · rw [List.getElem?_eq_none (by simpa using h)]
    simp [h]

theorem spec_envelope_length (l : List ℚ) : (spec_envelope l).length = l.length := by
  simp [spec_envelope]

theorem ap_sum_eq_spec : ∀ (l m : List ℚ), l.length = m.length → ap_sum l m = spec_ap l m := by
  intro l
  induction l with
  | nil => intro m _; simp [ap_sum, spec_ap]
  | cons a l ih =>
      intro m hm
      cases l with
      | nil =>
          match m, hm with
          | [p], _ => simp [ap_sum, spec_ap]
      | cons b rs =>
          match m, hm with
          | p :: q :: qs, hm =>
              have hlen : (b :: rs).length = (q :: qs).length := by
                simpa using hm
              have hih := ih (q :: qs) hlen
              show (if b ≠ a then (b - a) * q else 0) + ap_sum (b :: rs) (q :: qs) = _
              rw [hih]
              unfold spec_ap
              simp only [List.length_cons]
              rw [Finset.sum_range_succ' _ (rs.length + 1), Finset.sum_range_succ' _ rs.length,
                Finset.sum_range_succ' _ rs.length]
              have hF0 : (if 1 ≤ 0 ∧ (a :: b :: rs).getD 0 0 ≠ (a :: b :: rs).getD (0 - 1) 0
                  then ((a :: b :: rs).getD 0 0 - (a :: b :: rs).getD (0 - 1) 0) *
                    (p :: q :: qs).getD 0 0 else 0) = 0 := by
                simp
              have hG0 : (if 1 ≤ 0 ∧ (b :: rs).getD 0 0 ≠ (b :: rs).getD (0 - 1) 0
                  then ((b :: rs).getD 0 0 - (b :: rs).getD (0 - 1) 0) *
                    (q :: qs).getD 0 0 else 0) = 0 := by
                simp
              rw [hF0, hG0]
              have hterm : ∀ k ∈ Finset.range rs.length,
                  (if 1 ≤ k + 1 + 1 ∧
                      (a :: b :: rs).getD (k + 1 + 1) 0 ≠ (a :: b :: rs).getD (k + 1 + 1 - 1) 0
                  then ((a :: b :: rs).getD (k + 1 + 1) 0 - (a :: b :: rs).getD (k + 1 + 1 - 1) 0) *
                    (p :: q :: qs).getD (k + 1 + 1) 0 else 0) =
                  (if 1 ≤ k + 1 ∧ (b :: rs).getD (k + 1) 0 ≠ (b :: rs).getD (k + 1 - 1) 0
                  then ((b :: rs).getD (k + 1) 0 - (b :: rs).getD (k + 1 - 1) 0) *
                    (q :: qs).getD (k + 1) 0 else 0) := by
                intro k _
                simp [List.getD_cons_succ]
              rw [Finset.sum_congr rfl hterm]
              have hF1 : (if 1 ≤ 0 + 1 ∧
                  (a :: b :: rs).getD (0 + 1) 0 ≠ (a :: b :: rs).getD (0 + 1 - 1) 0
                  then ((a :: b :: rs).getD (0 + 1) 0 - (a :: b :: rs).getD (0 + 1 - 1) 0) *
                    (p :: q :: qs).getD (0 + 1) 0 else 0) =
                  (if b ≠ a then (b - a) * q else 0) := by
                simp [List.getD_cons_succ]
              rw [hF1]
              ring

/-- C1: `voc_ap` computes AP exactly by the spec's four steps: the
returned `mrec` is `0.0 :: rec ++ [1.0]`, the returned `mpre` is the
monotone envelope (pointwise suffix maximum) of `0.0 :: prec ++ [0.0]`,
and the returned `ap` is the sum of `(mrec[i] - mrec[i-1]) * mpre[i]`
over exactly the indices `i ≥ 1` where the recall changes. -/
theorem voc_ap_four_steps (rec prec : List ℚ) (h : rec.length = prec.length) :
    (voc_ap rec prec).1.2.1 = 0 :: rec ++ [1] ∧
    (voc_ap rec prec).1.2.2 = spec_envelope (0 :: prec ++ [0]) ∧
    (voc_ap rec prec).1.1 = spec_ap (0 :: rec ++ [1]) (spec_envelope (0 :: prec ++ [0])) := by
  refine ⟨by simp [voc_ap], ?_, ?_⟩
  · show envelope ((prec.insertIdx 0 0) ++ [0]) = _
    rw [List.insertIdx_zero, envelope_eq_spec]
  · show ap_sum ((rec.insertIdx 0 0) ++ [1]) (envelope ((prec.insertIdx 0 0) ++ [0])) = _
    rw [List.insertIdx_zero, List.insertIdx_zero, envelope_eq_spec]
    apply ap_sum_eq_spec
    rw [spec_envelope_length]
    simp [h]

/-- Witness for C1 at the empty recall/precision curves. -/
theorem voc_ap_four_steps_witness :
    (voc_ap [] []).1.1 = spec_ap (0 :: ([] : List ℚ) ++ [1]) (spec_envelope (0 :: ([] : List ℚ) ++ [0])) :=
  (voc_ap_four_steps [] [] rfl).2.2

theorem cumsum_length (l : List ℕ) : ∀ a, (cumsum l a).length = l.length := by
  induction l with
  | nil => intro a; rfl
  | cons x xs ih => intro a; simp [cumsum, ih]

theorem cumsum_getD (l : List ℕ) : ∀ (a i : ℕ), i < l.length →
    (cumsum l a).getD i 0 = a + (l.take (i + 1)).sum := by
  induction l with
  | nil => intro a i h; simp at h
  | cons x xs ih =>
      intro a i h
      match i with
      | 0 => simp [cumsum]; omega
      | i + 1 =>
          have hi : i < xs.length := by simpa using h
          show (cumsum xs (a + x)).getD i 0 = _
          rw [ih (a + x) i hi]
          simp
          omega

theorem divAll_length (l : List ℕ) (n : ℚ) : (divAll l n).length = l.length := by
  unfold divAll
  rw [List.length_map]

theorem divAll_getD (l : List ℕ) (n : ℚ) (i : ℕ) (h : i < l.length) :
    (divAll l n).getD i 0 = ((l.getD i 0 : ℕ) : ℚ) / n := by
  unfold divAll
  rw [List.getD_eq_getElem?_getD, List.getElem?_map, List.getElem?_eq_getElem h,
    List.getD_eq_getElem?_getD, List.getElem?_eq_getElem h]
  rfl

theorem precList_length (ts : List ℕ) : ∀ fs : List ℕ,
    (precList ts fs).length = min ts.length fs.length := by
  induction ts with
  | nil => intro fs; cases fs <;> simp [precList]
  | cons t ts ih =>
      intro fs
      cases fs with
      | nil => simp [precList]
      | cons f fs => simp [precList, ih]; omega

theorem precList_getD (ts : List ℕ) : ∀ (fs : List ℕ) (i : ℕ), i < ts.length → i < fs.length →
    (precList ts fs).getD i 0 =
      ((ts.getD i 0 : ℕ) : ℚ) / (((fs.getD i 0 : ℕ) : ℚ) + ((ts.getD i 0 : ℕ) : ℚ)) := by
  induction ts with
  | nil => intro fs i h; simp at h
  | cons t ts ih =>
      intro fs i ht hf
      cases fs with
      | nil => simp at hf
      | cons f fs =>
          match i with
          | 0 => simp [precList]
          | i + 1 =>
              show (precList ts fs).getD i 0 = _
              rw [ih fs i (by simpa using ht) (by simpa using hf)]
              simp

theorem precListE_eq_some : ∀ (ts fs : List ℕ),
    (∀ i (h1 : i < ts.length) (h2 : i < fs.length), 0 < fs[i] + ts[i]) →
    precListE ts fs = some (precList ts fs) := by
  intro ts
  induction ts with
  | nil => intro fs h; cases fs <;> rfl
  | cons t ts ih =>
      intro fs h
      cases fs with
      | nil => rfl
      | cons f fs =>
          have h0 : 0 < f + t := by
            have := h 0 (by simp) (by simp)
            simpa using this
          have hrest : ∀ i (h1 : i < ts.length) (h2 : i < fs.length), 0 < fs[i] + ts[i] := by
            intro i h1 h2
            have := h (i + 1) (by simpa using h1) (by simpa using h2)
            simpa using this
          unfold precListE
          rw [if_neg (by omega), ih fs hrest]
          rfl

theorem getElem_eq_getD_zero (l : List ℕ) (i : ℕ) (h : i < l.length) : l[i] = l.getD i 0 := by
  rw [List.getD_eq_getElem?_getD, List.getElem?_eq_getElem h]
  rfl

/-- C8 counterexample: `tp = [0]` and `fp = [0]` form a legal pair of
equal-length 0/1 flag sequences and the ground-truth list is non-empty,
yet the precision denominator at index `0` is `0 + 0 = 0`: the source
raises `ZeroDivisionError` in the precision loop (modelled by
`precListE` returning `none`), so `get_rec_prec` returns no sequences at
all, against the claim that it returns sequences satisfying the stated
formulas for every such input. -/
theorem get_rec_prec_zero_division_counterexample :
    (∀ x ∈ ([0] : List ℕ), x = 0 ∨ x = 1) ∧
    ([0] : List ℕ).length = ([0] : List ℕ).length ∧
    ([⟨0, ⟨0, 0, 1, 1⟩, false⟩] : List GtRecord) ≠ [] ∧
    (cumsum [0] 0).getD 0 0 + (cumsum [0] 0).getD 0 0 = 0 ∧
    precListE (cumsum [0] 0) (cumsum [0] 0) = none := by
  refine ⟨by decide, rfl, by simp, rfl, rfl⟩

/-- C8 (amended): for equal-length 0/1 flag sequences whose running
pairwise sums are always positive (so no precision denominator is zero;
otherwise the precision loop raises `ZeroDivisionError` and nothing is
returned) and a non-empty ground-truth list, the fallible precision
loop succeeds with exactly the values of `get_rec_prec`, which returns
two sequences of the input length with
`rec[i] = (running TP sum at i) / |gt|` and
`prec[i] = (running TP sum at i) / (running TP sum + running FP sum at i)`. -/
theorem get_rec_prec_formulas (tp fp : List ℕ) (gt : List GtRecord)
    (hlen : tp.length = fp.length) (hgt : gt ≠ [])
    (htp : ∀ x ∈ tp, x = 0 ∨ x = 1) (hfp : ∀ x ∈ fp, x = 0 ∨ x = 1)
    (hden : ∀ i, i < tp.length → 0 < (tp.take (i + 1)).sum + (fp.take (i + 1)).sum) :
    precListE (cumsum tp 0) (cumsum fp 0) = some (get_rec_prec tp fp gt).2 ∧
    (get_rec_prec tp fp gt).1.length = tp.length ∧
    (get_rec_prec tp fp gt).2.length = tp.length ∧
    (∀ i, i < tp.length →
      (get_rec_prec tp fp gt).1.getD i 0 = (((tp.take (i + 1)).sum : ℕ) : ℚ) / (gt.length : ℚ)) ∧
    (∀ i, i < tp.length →
      (get_rec_prec tp fp gt).2.getD i 0 =
        (((tp.take (i + 1)).sum : ℕ) : ℚ) /
          ((((tp.take (i + 1)).sum : ℕ) : ℚ) + (((fp.take (i + 1)).sum : ℕ) : ℚ))) := by
  refine ⟨?_, ?_, ?_, ?_, ?_⟩
  · show precListE (cumsum tp 0) (cumsum fp 0) = some (precList (cumsum tp 0) (cumsum fp 0))
    apply precListE_eq_some
    intro i h1 h2
    have hit : i < tp.length := by rw [cumsum_length] at h1; exact h1
    have hif : i < fp.length := by rw [cumsum_length] at h2; exact h2
    rw [getElem_eq_getD_zero _ i h2, getElem_eq_getD_zero _ i h1,
      cumsum_getD tp 0 i hit, cumsum_getD fp 0 i hif]
    have := hden i hit
    omega
  · show (divAll (cumsum tp 0) _).length = _
    rw [divAll_length, cumsum_length]
  · show (precList (cumsum tp 0) (cumsum fp 0)).length = _
    rw [precList_length, cumsum_length, cumsum_length, hlen, min_self]
  · intro i hi
    show (divAll (cumsum tp 0) _).getD i 0 = _
    rw [divAll_getD _ _ i (by rw [cumsum_length]; exact hi), cumsum_getD tp 0 i hi]
    simp
  · intro i hi
    show (precList (cumsum tp 0) (cumsum fp 0)).getD i 0 = _
    rw [precList_getD _ _ i (by rw [cumsum_length]; exact hi)
        (by rw [cumsum_length, ← hlen]; exact hi),
      cumsum_getD tp 0 i hi, cumsum_getD fp 0 i (by rw [← hlen]; exact hi)]
    simp only [Nat.zero_add]
    rw [add_comm ((((fp.take (i + 1)).sum : ℕ) : ℚ)) _]

/-- Witness for C8's amended theorem: one true positive then one false
positive, one ground-truth box; every denominator is positive. -/
theorem get_rec_prec_formulas_witness :
    (get_rec_prec [1] [0] [⟨0, ⟨0, 0, 1, 1⟩, false⟩]).1.getD 0 0 =
      ((([1].take (0 + 1)).sum : ℕ) : ℚ) / (([(⟨0, ⟨0, 0, 1, 1⟩, false⟩ : GtRecord)].length : ℕ) : ℚ) :=
  (get_rec_prec_formulas [1] [0] [⟨0, ⟨0, 0, 1, 1⟩, false⟩] rfl (by simp)
    (by simp) (by simp) (by decide)).2.2.2.1 0 (by decide)

theorem assignLoop_trace_length (thr : ℚ) : ∀ (gts : List GtRecord) (ps : List PredRecord),
    (assignLoop thr gts ps).2.length = ps.length := by
  intro gts ps
  induction ps generalizing gts with
  | nil => rfl
  | cons p ps ih =>
      show ((assignLoop thr (assignStep gts p thr).1 ps).2.length + 1) = ps.length + 1
      rw [ih]

theorem tp_fp_take_sum (bs : List Bool) : ∀ k, k ≤ bs.length →
    ((bs.map (fun b => if b then 1 else 0)).take k).sum +
      ((bs.map (fun b => if b then 0 else 1)).take k).sum = k := by
  induction bs with
  | nil =>
      intro k hk
      have hk0 : k = 0 := Nat.le_zero.mp hk
      subst hk0
      simp
  | cons b bs ih =>
      intro k hk
      match k with
      | 0 => simp
      | k + 1 =>
          have := ih k (by simpa using hk)
          cases b <;> simp [List.take_succ_cons] <;> omega

/-- C9: when the flag lists come from `calc_AP`'s matching loop (each
prediction sets exactly one of the two flags), the precision denominator
`cumulative_fp[i] + cumulative_tp[i]` equals `i + 1` at every index, so
the division in `get_rec_prec` never divides by zero; with zero
predictions both returned sequences are empty. -/
theorem calc_AP_denominator_safe (gtb : List GtBase) (preds : List PredRecord) :
    (∀ i, i < preds.length →
      (cumsum (((assignLoop (1/2) (initFlags gtb) preds).2.map Option.isSome).map
          (fun b => if b then 1 else 0)) 0).getD i 0 +
        (cumsum (((assignLoop (1/2) (initFlags gtb) preds).2.map Option.isSome).map
          (fun b => if b then 0 else 1)) 0).getD i 0 = i + 1) ∧
    (preds = [] →
      get_rec_prec (((assignLoop (1/2) (initFlags gtb) preds).2.map Option.isSome).map
          (fun b => if b then 1 else 0))
        (((assignLoop (1/2) (initFlags gtb) preds).2.map Option.isSome).map
          (fun b => if b then 0 else 1))
        (assignLoop (1/2) (initFlags gtb) preds).1 = ([], [])) := by
  constructor
  · intro i hi
    have hflen : ((assignLoop (1/2) (initFlags gtb) preds).2.map Option.isSome).length
        = preds.length := by
      rw [List.length_map, assignLoop_trace_length]
    have hi1 : i < (((assignLoop (1/2) (initFlags gtb) preds).2.map Option.isSome).map
        (fun b => if b then 1 else 0)).length := by
      rw [List.length_map, hflen]; exact hi
    have hi2 : i < (((assignLoop (1/2) (initFlags gtb) preds).2.map Option.isSome).map
        (fun b => if b then 0 else 1)).length := by
      rw [List.length_map, hflen]; exact hi
    rw [cumsum_getD _ 0 i hi1, cumsum_getD _ 0 i hi2]
    have := tp_fp_take_sum ((assignLoop (1/2) (initFlags gtb) preds).2.map Option.isSome)
      (i + 1) (by omega)
    omega
  · intro h
    subst h
    rfl

/-- Witness for C9 at one ground-truth box and one prediction. -/
theorem calc_AP_denominator_safe_witness :
    (cumsum (((assignLoop (1/2) (initFlags [⟨0, ⟨0, 0, 2, 2⟩⟩])
        [⟨0, ⟨0, 0, 2, 2⟩, 1⟩]).2.map Option.isSome).map
        (fun b => if b then 1 else 0)) 0).getD 0 0 +
      (cumsum (((assignLoop (1/2) (initFlags [⟨0, ⟨0, 0, 2, 2⟩⟩])
        [⟨0, ⟨0, 0, 2, 2⟩, 1⟩]).2.map Option.isSome).map
        (fun b => if b then 0 else 1)) 0).getD 0 0 = 0 + 1 :=
  (calc_AP_denominator_safe [⟨0, ⟨0, 0, 2, 2⟩⟩] [⟨0, ⟨0, 0, 2, 2⟩, 1⟩]).1 0 (by norm_num)

/-- C3 counterexample: a vocabulary class (here class `0`) that has no
prediction records and also no ground-truth entry does not get `AP = 0`:
`compute_mAP` fails on the lookup `gt_classes_records[class_name]`
(Python `KeyError`, modelled by `none`) before the prediction check is
ever reached, so no mean is produced at all. -/
theorem compute_mAP_missing_class_counterexample :
    compute_mAP (fun _ => none) (fun _ => none) [0] = none := rfl

theorem compute_APs_some (gtm : ℕ → Option (List GtBase))
    (predm : ℕ → Option (List PredRecord)) :
    ∀ cs : List ℕ, (∀ c ∈ cs, (gtm c).isSome) →
      ∃ aps : List ℚ, compute_APs gtm predm cs = some aps ∧
        aps.length = cs.length ∧
        (∀ (k c : ℕ), cs[k]? = some c → predm c = none → aps[k]? = some 0) := by
  intro cs
  induction cs with
  | nil =>
      intro _
      refine ⟨[], rfl, rfl, ?_⟩
      intro k c hk
      simp at hk
  | cons c cs ih =>
      intro h
      obtain ⟨gt, hgt⟩ := Option.isSome_iff_exists.mp (h c (List.mem_cons_self c cs))
      obtain ⟨rest, hrest, hlen, hzero⟩ := ih (fun c' hc' => h c' (List.mem_cons_of_mem c hc'))
      refine ⟨(match predm c with
               | none => 0
               | some ps => (calc_AP gt ps).1) :: rest, ?_, by simp [hlen], ?_⟩
      · unfold compute_APs
        rw [hrest]
        unfold classAP
        rw [hgt]
      · intro k c' hk hpred
        match k with
        | 0 =>
            rw [List.getElem?_cons_zero] at hk
            have hc' : c' = c := by injection hk; omega
            subst hc'
            rw [List.getElem?_cons_zero, hpred]
        | k + 1 =>
            rw [List.getElem?_cons_succ] at hk
            rw [List.getElem?_cons_succ]
            exact hzero k c' hk hpred

/-- C3 (amended): provided every vocabulary class has at least one
ground-truth entry (otherwise `compute_mAP` raises `KeyError` on the
`gt_classes_records[class_name]` lookup that precedes the prediction
check), every class with no prediction records gets `AP = 0` without any
matching run, and those zeros still participate in the arithmetic mean
over all vocabulary classes that forms the returned percentage. -/
theorem compute_mAP_zero_prediction_classes (gtm : ℕ → Option (List GtBase))
    (predm : ℕ → Option (List PredRecord)) (cs : List ℕ)
    (h : ∀ c ∈ cs, (gtm c).isSome) :
    ∃ aps : List ℚ, compute_APs gtm predm cs = some aps ∧
      aps.length = cs.length ∧
      (∀ (k c : ℕ), cs[k]? = some c → predm c = none → aps[k]? = some 0) ∧
      compute_mAP gtm predm cs = some (aps.sum / (aps.length : ℚ) * 100) := by
  obtain ⟨aps, haps, hlen, hzero⟩ := compute_APs_some gtm predm cs h
  refine ⟨aps, haps, hlen, hzero, ?_⟩
  unfold compute_mAP
  rw [haps]
  rfl

/-- Witness for C3's amended theorem: one class with one ground-truth box
and no predictions. -/
theorem compute_mAP_zero_prediction_classes_witness :
    ∃ aps : List ℚ,
      compute_APs (fun _ => some [⟨0, ⟨0, 0, 1, 1⟩⟩]) (fun _ => none) [0] = some aps ∧
      aps.length = ([0] : List ℕ).length ∧
      (∀ (k c : ℕ), ([0] : List ℕ)[k]? = some c →
        (fun _ => (none : Option (List PredRecord))) c = none → aps[k]? = some 0) ∧
      compute_mAP (fun _ => some [⟨0, ⟨0, 0, 1, 1⟩⟩]) (fun _ => none) [0] =
        some (aps.sum / (aps.length : ℚ) * 100) :=
  compute_mAP_zero_prediction_classes (fun _ => some [⟨0, ⟨0, 0, 1, 1⟩⟩]) (fun _ => none) [0]
    (by simp)

theorem match_scan_cons (pred : PredRecord) (g : GtRecord) (gs : List GtRecord)
    (n : ℕ) (m : ℚ) (idx : ℤ) :
    match_scan pred (g :: gs) n m idx =
      if m < box_iou pred.box g.box ∧ g.used = false ∧ pred.image = g.image then
        match_scan pred gs (n + 1) (box_iou pred.box g.box) (n : ℤ)
      else match_scan pred gs (n + 1) m idx := rfl

theorem match_scan_inv (pred : PredRecord) :
    ∀ (gs : List GtRecord) (n : ℕ) (m : ℚ) (idx : ℤ),
      m ≤ (match_scan pred gs n m idx).1 ∧
      (∀ j (hj : j < gs.length), elig pred gs[j] →
        box_iou pred.box gs[j].box ≤ (match_scan pred gs n m idx).1) ∧
      (match_scan pred gs n m idx = (m, idx) ∨
        ∃ j, ∃ hj : j < gs.length,
          (match_scan pred gs n m idx).2 = ((n + j : ℕ) : ℤ) ∧
          (match_scan pred gs n m idx).1 = box_iou pred.box gs[j].box ∧
          elig pred gs[j] ∧
          m < (match_scan pred gs n m idx).1 ∧
          (∀ k (hk : k < gs.length), k < j → elig pred gs[k] →
            box_iou pred.box gs[k].box < (match_scan pred gs n m idx).1)) := by
  intro gs
  induction gs with
  | nil =>
      intro n m idx
      refine ⟨le_refl m, ?_, Or.inl rfl⟩
      intro j hj
      simp at hj
  | cons g gs ih =>
      intro n m idx
      rw [match_scan_cons]
      by_cases hc : m < box_iou pred.box g.box ∧ g.used = false ∧ pred.image = g.image
      · rw [if_pos hc]
        obtain ⟨ihA, ihB, ihC⟩ := ih (n + 1) (box_iou pred.box g.box) (n : ℤ)
        refine ⟨le_of_lt (lt_of_lt_of_le hc.1 ihA), ?_, ?_⟩
        · intro j hj helig
          match j with
          | 0 => simpa using ihA
          | j + 1 =>
              rw [List.getElem_cons_succ] at helig ⊢
              exact ihB j (by simpa using hj) helig
        · rcases ihC with hL | ⟨j', hj', h2, h1, he, hm, hb⟩
          · refine Or.inr ⟨0, by simp, ?_, ?_, ⟨hc.2.1, hc.2.2⟩, ?_, ?_⟩
            · rw [hL]; simp
            · rw [hL]; simp
            · rw [hL]; exact hc.1
            · intro k hk hk0
              omega
          · refine Or.inr ⟨j' + 1, by simpa using hj', ?_, ?_, ?_, ?_, ?_⟩
            · rw [h2]; congr 1; omega
            · rw [h1]; rw [List.getElem_cons_succ]
            · rw [List.getElem_cons_succ]; exact he
            · exact lt_trans hc.1 hm
            · intro k hk hkj helig
              match k with
              | 0 =>
                  rw [List.getElem_cons_zero]
                  exact hm
              | k + 1 =>
                  rw [List.getElem_cons_succ] at helig ⊢
                  exact hb k (by simpa using hk) (by omega) helig
      · rw [if_neg hc]
        obtain ⟨ihA, ihB, ihC⟩ := ih (n + 1) m idx
        have hg : elig pred g → box_iou pred.box g.box ≤ m := by
          intro he
          by_contra hcon
          exact hc ⟨lt_of_not_le hcon, he.1, he.2⟩
        refine ⟨ihA, ?_, ?_⟩
        · intro j hj helig
          match j with
          | 0 =>
              rw [List.getElem_cons_zero] at helig ⊢
              exact le_trans (hg helig) ihA
          | j + 1 =>
              rw [List.getElem_cons_succ] at helig ⊢
              exact ihB j (by simpa using hj) helig
        · rcases ihC with hL | ⟨j', hj', h2, h1, he, hm, hb⟩
          · exact Or.inl hL
          · refine Or.inr ⟨j' + 1, by simpa using hj', ?_, ?_, ?_, hm, ?_⟩
            · rw [h2]; congr 1; omega
            · rw [h1]; rw [List.getElem_cons_succ]
            · rw [List.getElem_cons_succ]; exact he
            · intro k hk hkj helig
              match k with
              | 0 =>
                  rw [List.getElem_cons_zero] at helig ⊢
                  exact lt_of_le_of_lt (hg helig) hm
              | k + 1 =>
                  rw [List.getElem_cons_succ] at helig ⊢
                  exact hb k (by simpa using hk) (by omega) helig

theorem match_gt_box_char (pred : PredRecord) (gts : List GtRecord) (thr : ℚ) :
    (match_gt_box pred gts thr = -1 ∧
      ∀ j (hj : j < gts.length), elig pred gts[j] →
        box_iou pred.box gts[j].box ≤ 0 ∨ box_iou pred.box gts[j].box < thr) ∨
    (∃ j, ∃ hj : j < gts.length,
      match_gt_box pred gts thr = (j : ℤ) ∧ elig pred gts[j] ∧
      0 < box_iou pred.box gts[j].box ∧ thr ≤ box_iou pred.box gts[j].box ∧
      (∀ k (hk : k < gts.length), elig pred gts[k] →
        box_iou pred.box gts[k].box ≤ box_iou pred.box gts[j].box) ∧
      (∀ k (hk : k < gts.length), k < j → elig pred gts[k] →
        box_iou pred.box gts[k].box < box_iou pred.box gts[j].box)) := by
  obtain ⟨invA, invB, invC⟩ := match_scan_inv pred gts 0 0 (-1)
  rcases invC with hL | ⟨j, hj, h2, h1, he, hm, hb⟩
  · left
    constructor
    · unfold match_gt_box
      rw [hL]
      simp
    · intro k hk helig
      left
      have := invB k hk helig
      rw [hL] at this
      exact this
  · by_cases hthr : (match_scan pred gts 0 0 (-1)).1 < thr
    · left
      constructor
      · unfold match_gt_box
        rw [if_pos hthr]
      · intro k hk helig
        right
        exact lt_of_le_of_lt (invB k hk helig) hthr
    · right
      refine ⟨j, hj, ?_, he, ?_, ?_, ?_, ?_⟩
      · unfold match_gt_box
        rw [if_neg hthr, h2]
        congr 1
        omega
      · rw [← h1]; exact hm
      · rw [← h1]; exact le_of_not_lt hthr
      · intro k hk helig
        rw [← h1]
        exact invB k hk helig
      · intro k hk hkj helig
        rw [← h1]
        exact hb k hk hkj helig

/-- C4 counterexample: with `iou_threshold = 0` and a single eligible
same-image candidate touching the prediction box (IoU exactly `0`, hence
best IoU `≥` threshold), the claim prescribes returning index `0`, but
`match_gt_box` returns `-1`: the scan accumulator starts at `0.0` and is
only updated on strictly greater IoU, so a best IoU of `0` is never
accepted. -/
theorem match_gt_box_threshold_counterexample :
    elig ⟨0, ⟨0, 0, 1, 1⟩, 1⟩ ⟨0, ⟨1, 0, 2, 1⟩, false⟩ ∧
    (0 : ℚ) ≤ box_iou (Box.mk 0 0 1 1) (Box.mk 1 0 2 1) ∧
    match_gt_box ⟨0, ⟨0, 0, 1, 1⟩, 1⟩ [⟨0, ⟨1, 0, 2, 1⟩, false⟩] 0 ≠ 0 ∧
    match_gt_box ⟨0, ⟨0, 0, 1, 1⟩, 1⟩ [⟨0, ⟨1, 0, 2, 1⟩, false⟩] 0 = -1 := by
  refine ⟨⟨rfl, rfl⟩, by norm_num [box_iou, qmax, qmin], ?_, ?_⟩ <;>
    norm_num [match_gt_box, match_scan, box_iou, qmax, qmin]

/-- C4 (amended): `match_gt_box` returns `-1` exactly when no unused
same-image candidate has an IoU that is both strictly positive and `≥`
the threshold; any returned index is a valid position holding an unused
same-image candidate whose IoU is strictly positive, `≥` the threshold,
maximal among all eligible candidates, and strictly greater than every
earlier eligible candidate's IoU (first-seen wins on ties). -/
theorem match_gt_box_greedy_spec (pred : PredRecord) (gts : List GtRecord) (thr : ℚ) :
    ((match_gt_box pred gts thr = -1) ↔
      ¬ ∃ j, ∃ hj : j < gts.length, elig pred gts[j] ∧
        0 < box_iou pred.box gts[j].box ∧ thr ≤ box_iou pred.box gts[j].box) ∧
    (∀ i : ℕ, match_gt_box pred gts thr = (i : ℤ) →
      ∃ hi : i < gts.length, elig pred gts[i] ∧
        0 < box_iou pred.box gts[i].box ∧ thr ≤ box_iou pred.box gts[i].box ∧
        (∀ k (hk : k < gts.length), elig pred gts[k] →
          box_iou pred.box gts[k].box ≤ box_iou pred.box gts[i].box) ∧
        (∀ k (hk : k < gts.length), k < i → elig pred gts[k] →
          box_iou pred.box gts[k].box < box_iou pred.box gts[i].box)) := by
  rcases match_gt_box_char pred gts thr with ⟨heq, hall⟩ | ⟨j, hj, heq, he, hpos, hthr, hmax, hbef⟩
  · constructor
    · constructor
      · rintro - ⟨k, hk, helig, hpos, hthr⟩
        rcases hall k hk helig with h | h
        · exact absurd hpos (not_lt.mpr h)
        · exact absurd hthr (not_le.mpr h)
      · intro _; exact heq
    · intro i hi
      rw [heq] at hi
      exact absurd hi (by omega)
  · constructor
    · constructor
      · intro hcon
        rw [heq] at hcon
        exact absurd hcon (by omega)
      · intro hcon
        exact absurd ⟨j, hj, he, hpos, hthr⟩ hcon
    · intro i hi
      have hij : i = j := by
        rw [heq] at hi
        omega
      subst hij
      exact ⟨hj, he, hpos, hthr, hmax, hbef⟩

/-- Witness for C4's amended theorem: the touching-boxes candidate is
rejected at the default threshold `1/2`. -/
theorem match_gt_box_greedy_spec_witness :
    match_gt_box ⟨0, ⟨0, 0, 1, 1⟩, 1⟩ [⟨0, ⟨1, 0, 2, 1⟩, false⟩] (1/2) = -1 :=
  (match_gt_box_greedy_spec ⟨0, ⟨0, 0, 1, 1⟩, 1⟩ [⟨0, ⟨1, 0, 2, 1⟩, false⟩] (1/2)).1.mpr
    (by
      rintro ⟨j, hj, -, hpos, -⟩
      simp only [List.length_singleton] at hj
      have hj0 : j = 0 := by omega
      subst hj0
      rw [List.getElem_cons_zero] at hpos
      norm_num [box_iou, qmax, qmin] at hpos)

theorem idxFilter_mem (p : GtRecord → Bool) :
    ∀ (gts : List GtRecord) (n : ℕ) (q : ℕ × GtRecord), q ∈ idxFilter p gts n →
      ∃ j, ∃ hj : j < gts.length, q.1 = n + j ∧ q.2 = gts[j] ∧ p gts[j] = true := by
  intro gts
  induction gts with
  | nil => intro n q hq; simp [idxFilter] at hq
  | cons g gs ih =>
      intro n q hq
      unfold idxFilter at hq
      by_cases hp : p g
      · rw [if_pos hp] at hq
        rcases List.mem_cons.mp hq with hq | hq
        · subst hq
          exact ⟨0, by simp, by simp, by simp, by simpa using hp⟩
        · obtain ⟨j, hj, h1, h2, h3⟩ := ih (n + 1) q hq
          refine ⟨j + 1, by simpa using hj, by omega, ?_, ?_⟩
          · rw [List.getElem_cons_succ]; exact h2
          · rw [List.getElem_cons_succ]; exact h3
      · rw [if_neg hp] at hq
        obtain ⟨j, hj, h1, h2, h3⟩ := ih (n + 1) q hq
        refine ⟨j + 1, by simpa using hj, by omega, ?_, ?_⟩
        · rw [List.getElem_cons_succ]; exact h2
        · rw [List.getElem_cons_succ]; exact h3

theorem idxFilter_complete (p : GtRecord → Bool) :
    ∀ (gts : List GtRecord) (n j : ℕ) (hj : j < gts.length), p gts[j] = true →
      (n + j, gts[j]) ∈ idxFilter p gts n := by
  intro gts
  induction gts with
  | nil => intro n j hj; simp at hj
  | cons g gs ih =>
      intro n j hj hp
      unfold idxFilter
      match j with
      | 0 =>
          rw [List.getElem_cons_zero] at hp ⊢
          rw [if_pos hp]
          simp
      | j + 1 =>
          rw [List.getElem_cons_succ] at hp ⊢
          have := ih (n + 1) j (by simpa using hj) hp
          have harith : n + (j + 1) = (n + 1) + j := by omega
          rw [harith]
          by_cases hpg : p g
          · rw [if_pos hpg]
            exact List.mem_cons_of_mem _ this
          · rw [if_neg hpg]
            exact this

theorem idxFilter_sorted (p : GtRecord → Bool) :
    ∀ (gts : List GtRecord) (n : ℕ),
      (idxFilter p gts n).Pairwise (fun a b => a.1 < b.1) := by
  intro gts
  induction gts with
  | nil => intro n; simp [idxFilter]
  | cons g gs ih =>
      intro n
      unfold idxFilter
      by_cases hp : p g
      · rw [if_pos hp]
        refine List.Pairwise.cons ?_ (ih (n + 1))
        intro q hq
        obtain ⟨j, hj, h1, -, -⟩ := idxFilter_mem p gs (n + 1) q hq
        omega
      · rw [if_neg hp]
        exact ih (n + 1)

theorem markUsed_length : ∀ (gts : List GtRecord) (o : ℕ),
    (markUsed gts o).length = gts.length := by
  intro gts
  induction gts with
  | nil => intro o; rfl
  | cons g gs ih =>
      intro o
      match o with
      | 0 => rfl
      | o + 1 => show (markUsed gs o).length + 1 = gs.length + 1; rw [ih]

theorem markUsed_getElem? : ∀ (gts : List GtRecord) (o j : ℕ),
    (markUsed gts o)[j]? =
      if j = o then gts[j]?.map (fun g => ⟨g.image, g.box, true⟩) else gts[j]? := by
  intro gts
  induction gts with
  | nil =>
      intro o j
      simp [markUsed]
  | cons g gs ih =>
      intro o j
      match o, j with
      | 0, 0 => simp [markUsed]
      | 0, j + 1 => simp [markUsed]
      | o + 1, 0 => simp [markUsed]
      | o + 1, j + 1 =>
          have hstep : (markUsed (g :: gs) (o + 1))[j + 1]? = (markUsed gs o)[j]? := by
            show (g :: markUsed gs o)[j + 1]? = _
            rw [List.getElem?_cons_succ]
          rw [hstep, ih o j]
          by_cases hj : j = o
          · rw [if_pos hj, if_pos (by omega)]
            rw [List.getElem?_cons_succ]
          · rw [if_neg hj, if_neg (by omega)]
            rw [List.getElem?_cons_succ]

theorem assignStep_char (gts : List GtRecord) (pred : PredRecord) (thr : ℚ) :
    (assignStep gts pred thr = (gts, none) ∧
      ∀ o (ho : o < gts.length), elig pred gts[o] →
        box_iou pred.box gts[o].box ≤ 0 ∨ box_iou pred.box gts[o].box < thr) ∨
    (∃ o, ∃ ho : o < gts.length,
      assignStep gts pred thr = (markUsed gts o, some o) ∧
      elig pred gts[o] ∧
      0 < box_iou pred.box gts[o].box ∧ thr ≤ box_iou pred.box gts[o].box ∧
      (∀ k (hk : k < gts.length), elig pred gts[k] →
        box_iou pred.box gts[k].box ≤ box_iou pred.box gts[o].box) ∧
      (∀ k (hk : k < gts.length), k < o → elig pred gts[k] →
        box_iou pred.box gts[k].box < box_iou pred.box gts[o].box)) := by
  have hmem : ∀ o (ho : o < gts.length), pred.image = gts[o].image →
      ∃ k, ∃ hk : k < (idxFilter (fun g => g.image == pred.image) gts 0).length,
        (idxFilter (fun g => g.image == pred.image) gts 0)[k] = (o, gts[o]) := by
    intro o ho himg
    have hc := idxFilter_complete (fun g => g.image == pred.image) gts 0 o ho
      (by simp [himg.symm])
    rw [Nat.zero_add] at hc
    exact List.mem_iff_getElem.mp hc
  have hinfo : ∀ k (hk : k < (idxFilter (fun g => g.image == pred.image) gts 0).length),
      ∃ o, ∃ ho : o < gts.length,
        (idxFilter (fun g => g.image == pred.image) gts 0)[k].1 = o ∧
        (idxFilter (fun g => g.image == pred.image) gts 0)[k].2 = gts[o] := by
    intro k hk
    obtain ⟨j, hj, h1, h2, -⟩ := idxFilter_mem (fun g => g.image == pred.image) gts 0
      ((idxFilter (fun g => g.image == pred.image) gts 0)[k]) (List.getElem_mem hk)
    exact ⟨j, hj, by omega, h2⟩
  have hmono : ∀ (k1 k2 : ℕ) (h1 : k1 < (idxFilter (fun g => g.image == pred.image) gts 0).length)
      (h2 : k2 < (idxFilter (fun g => g.image == pred.image) gts 0).length), k1 < k2 →
      (idxFilter (fun g => g.image == pred.image) gts 0)[k1].1 <
        (idxFilter (fun g => g.image == pred.image) gts 0)[k2].1 := by
    intro k1 k2 h1 h2 hlt
    have hp := List.pairwise_iff_get.mp (idxFilter_sorted (fun g => g.image == pred.image) gts 0)
      ⟨k1, h1⟩ ⟨k2, h2⟩ hlt
    simpa [List.get_eq_getElem] using hp
  have hmaplen : ((idxFilter (fun g => g.image == pred.image) gts 0).map Prod.snd).length =
      (idxFilter (fun g => g.image == pred.image) gts 0).length := List.length_map _ _
  rcases match_gt_box_char pred
      ((idxFilter (fun g => g.image == pred.image) gts 0).map Prod.snd) thr with
    ⟨heq, hall⟩ | ⟨k, hk, heq, he, hpos, hthr, hmax, hbef⟩
  · left
    constructor
    · simp only [assignStep]
      rw [heq]
      simp
    · intro o ho helig
      obtain ⟨k, hk, hpk⟩ := hmem o ho helig.2
      have hk' : k < ((idxFilter (fun g => g.image == pred.image) gts 0).map Prod.snd).length := by
        rw [hmaplen]; exact hk
      have hsnd : ((idxFilter (fun g => g.image == pred.image) gts 0).map Prod.snd)[k] = gts[o] := by
        rw [List.getElem_map, hpk]
      have := hall k hk' (by rw [hsnd]; exact helig)
      rw [hsnd] at this
      exact this
  · right
    have hkp : k < (idxFilter (fun g => g.image == pred.image) gts 0).length := by
      rw [hmaplen] at hk; exact hk
    have hsnd : ((idxFilter (fun g => g.image == pred.image) gts 0).map Prod.snd)[k] =
        (idxFilter (fun g => g.image == pred.image) gts 0)[k].2 := List.getElem_map _
    obtain ⟨o, ho, hfst, hsnd2⟩ := hinfo k hkp
    refine ⟨o, ho, ?_, ?_, ?_, ?_, ?_, ?_⟩
    · simp only [assignStep]
      rw [heq]
      rw [if_neg (by omega : ¬ ((k : ℤ) = -1))]
      have htn : ((k : ℤ)).toNat = k := Int.toNat_ofNat k
      rw [htn]
      have hgetD : ((idxFilter (fun g => g.image == pred.image) gts 0).map Prod.fst).getD k
          gts.length = o := by
        rw [List.getD_eq_getElem?_getD, List.getElem?_map, List.getElem?_eq_getElem hkp]
        simp [hfst]
      rw [hgetD]
    · rw [hsnd, hsnd2] at he
      exact he
    · rw [hsnd, hsnd2] at hpos
      exact hpos
    · rw [hsnd, hsnd2] at hthr
      exact hthr
    · intro k' hk' helig'
      obtain ⟨k2, hk2, hpk2⟩ := hmem k' hk' helig'.2
      have hk2' : k2 < ((idxFilter (fun g => g.image == pred.image) gts 0).map Prod.snd).length := by
        rw [hmaplen]; exact hk2
      have hsnd3 : ((idxFilter (fun g => g.image == pred.image) gts 0).map Prod.snd)[k2] =
          gts[k'] := by
        rw [List.getElem_map, hpk2]
      have := hmax k2 hk2' (by rw [hsnd3]; exact helig')
      rw [hsnd3, hsnd, hsnd2] at this
      exact this
    · intro k' hk' hlt helig'
      obtain ⟨k2, hk2, hpk2⟩ := hmem k' hk' helig'.2
      have hk2' : k2 < ((idxFilter (fun g => g.image == pred.image) gts 0).map Prod.snd).length := by
        rw [hmaplen]; exact hk2
      have hsnd3 : ((idxFilter (fun g => g.image == pred.image) gts 0).map Prod.snd)[k2] =
          gts[k'] := by
        rw [List.getElem_map, hpk2]
      have hk2k : k2 < k := by
        by_contra hcon
        rcases Nat.lt_or_ge k k2 with hlt2 | hge
        · have := hmono k k2 hkp hk2 hlt2
          rw [hfst, hpk2] at this
          omega
        · have hk2eq : k2 = k := by omega
          subst hk2eq
          rw [hpk2] at hfst
          simp at hfst
          omega
      have := hbef k2 hk2' hk2k (by rw [hsnd3]; exact helig')
      rw [hsnd3, hsnd, hsnd2] at this
      exact this

theorem assignLoop_cons (thr : ℚ) (gts : List GtRecord) (p : PredRecord) (ps : List PredRecord) :
    assignLoop thr gts (p :: ps) =
      ((assignLoop thr (assignStep gts p thr).1 ps).1,
       (assignStep gts p thr).2 :: (assignLoop thr (assignStep gts p thr).1 ps).2) := rfl

theorem filterMap_id_cons_some (o : ℕ) (l : List (Option ℕ)) :
    (some o :: l).filterMap id = o :: l.filterMap id := rfl

theorem filterMap_id_cons_none (l : List (Option ℕ)) :
    (none :: l).filterMap id = l.filterMap id := rfl

theorem markUsed_used_mono (gts : List GtRecord) (o j : ℕ) (g : GtRecord)
    (hj : gts[j]? = some g) (hu : g.used = true) :
    ∃ g', (markUsed gts o)[j]? = some g' ∧ g'.used = true := by
  rw [markUsed_getElem? gts o j]
  by_cases h : j = o
  · rw [if_pos h, hj]
    exact ⟨_, rfl, rfl⟩
  · rw [if_neg h, hj]
    exact ⟨g, rfl, hu⟩

theorem markUsed_self (gts : List GtRecord) (o : ℕ) (ho : o < gts.length) :
    (markUsed gts o)[o]? = some ⟨gts[o].image, gts[o].box, true⟩ := by
  rw [markUsed_getElem? gts o o, if_pos rfl, List.getElem?_eq_getElem ho]
  rfl

theorem assignLoop_not_matched (thr : ℚ) :
    ∀ (ps : List PredRecord) (gts : List GtRecord) (j : ℕ) (g : GtRecord),
      gts[j]? = some g → g.used = true →
      j ∉ (assignLoop thr gts ps).2.filterMap id := by
  intro ps
  induction ps with
  | nil =>
      intro gts j g hj hu
      simp [assignLoop]
  | cons p ps ih =>
      intro gts j g hj hu
      rw [assignLoop_cons]
      rcases assignStep_char gts p thr with ⟨hstep, -⟩ | ⟨o, ho, hstep, helig, -⟩
      · rw [hstep]
        simp only [filterMap_id_cons_none]
        exact ih gts j g hj hu
      · rw [hstep]
        simp only [filterMap_id_cons_some, List.mem_cons]
        push_neg
        constructor
        · intro hcon
          subst hcon
          rw [List.getElem?_eq_getElem ho] at hj
          have hgj : gts[j] = g := by injection hj
          rw [← hgj, helig.1] at hu
          exact absurd hu (by simp)
        · obtain ⟨g', hg', hu'⟩ := markUsed_used_mono gts o j g hj hu
          exact ih (markUsed gts o) j g' hg' hu'

theorem assignLoop_nodup (thr : ℚ) :
    ∀ (ps : List PredRecord) (gts : List GtRecord),
      ((assignLoop thr gts ps).2.filterMap id).Nodup := by
  intro ps
  induction ps with
  | nil => intro gts; simp [assignLoop]
  | cons p ps ih =>
      intro gts
      rw [assignLoop_cons]
      rcases assignStep_char gts p thr with ⟨hstep, -⟩ | ⟨o, ho, hstep, -⟩
      · rw [hstep]
        simp only [filterMap_id_cons_none]
        exact ih gts
      · rw [hstep]
        simp only [filterMap_id_cons_some]
        refine List.Nodup.cons ?_ (ih (markUsed gts o))
        exact assignLoop_not_matched thr ps (markUsed gts o) o _ (markUsed_self gts o ho) rfl

theorem assignLoop_used_iff (thr : ℚ) :
    ∀ (ps : List PredRecord) (gts : List GtRecord) (j : ℕ),
      (∃ g, ((assignLoop thr gts ps).1)[j]? = some g ∧ g.used = true) ↔
        (j ∈ (assignLoop thr gts ps).2.filterMap id ∨
          ∃ g, gts[j]? = some g ∧ g.used = true) := by
  intro ps
  induction ps with
  | nil =>
      intro gts j
      simp [assignLoop]
  | cons p ps ih =>
      intro gts j
      rw [assignLoop_cons]
      rcases assignStep_char gts p thr with ⟨hstep, -⟩ | ⟨o, ho, hstep, helig, -⟩
      · rw [hstep]
        simp only [filterMap_id_cons_none]
        exact ih gts j
      · rw [hstep]
        simp only [filterMap_id_cons_some, List.mem_cons]
        rw [ih (markUsed gts o) j]
        have hmark : (∃ g, (markUsed gts o)[j]? = some g ∧ g.used = true) ↔
            (j = o ∨ ∃ g, gts[j]? = some g ∧ g.used = true) := by
          constructor
          · rintro ⟨g, hg, hu⟩
            by_cases h : j = o
            · exact Or.inl h
            · rw [markUsed_getElem? gts o j, if_neg h] at hg
              exact Or.inr ⟨g, hg, hu⟩
          · rintro (h | ⟨g, hg, hu⟩)
            · subst h
              exact ⟨_, markUsed_self gts j ho, rfl⟩
            · exact markUsed_used_mono gts o j g hg hu
        rw [hmark]
        tauto

theorem initFlags_getElem?_used (gtb : List GtBase) (j : ℕ) (g : GtRecord)
    (h : (initFlags gtb)[j]? = some g) : g.used = false := by
  rw [initFlags, List.getElem?_map] at h
  cases hb : gtb[j]? with
  | none => rw [hb] at h; exact absurd h (by simp)
  | some b =>
      rw [hb] at h
      have h2 : some (⟨b.image, b.box, false⟩ : GtRecord) = some g := h
      injection h2 with h3
      rw [← h3]

/-- C5: in `calc_AP`'s evaluation pass every ground-truth record starts
`'unused'`, the list of matched ground-truth indices over the whole loop
has no duplicates (no record is matched to two predictions), and a
record's flag ends up `'used'` exactly when some prediction was matched
to it — so each flag flips at most once. -/
theorem calc_AP_gt_matched_once (gtb : List GtBase) (preds : List PredRecord) :
    (∀ g ∈ initFlags gtb, g.used = false) ∧
    ((assignLoop (1/2) (initFlags gtb) preds).2.filterMap id).Nodup ∧
    (∀ j : ℕ,
      (∃ g, ((assignLoop (1/2) (initFlags gtb) preds).1)[j]? = some g ∧ g.used = true) ↔
        j ∈ (assignLoop (1/2) (initFlags gtb) preds).2.filterMap id) := by
  refine ⟨?_, assignLoop_nodup (1/2) preds (initFlags gtb), ?_⟩
  · intro g hg
    rw [initFlags, List.mem_map] at hg
    obtain ⟨b, -, hb⟩ := hg
    rw [← hb]
  · intro j
    rw [assignLoop_used_iff (1/2) preds (initFlags gtb) j]
    have hinit : ¬ ∃ g, (initFlags gtb)[j]? = some g ∧ g.used = true := by
      rintro ⟨g, hg, hu⟩
      rw [initFlags_getElem?_used gtb j g hg] at hu
      exact absurd hu (by simp)
    constructor
    · rintro (h | h)
      · exact h
      · exact absurd h hinit
    · intro h
      exact Or.inl h

/-- Witness for C5: one ground truth, one matching prediction. -/
theorem calc_AP_gt_matched_once_witness :
    ((assignLoop (1/2) (initFlags [⟨0, ⟨0, 0, 2, 2⟩⟩])
        [⟨0, ⟨0, 0, 2, 2⟩, 1⟩]).2.filterMap id).Nodup :=
  (calc_AP_gt_matched_once [⟨0, ⟨0, 0, 2, 2⟩⟩] [⟨0, ⟨0, 0, 2, 2⟩, 1⟩]).2.1

theorem markUsed_countP (gts : List GtRecord) : ∀ (o : ℕ) (ho : o < gts.length),
    gts[o].used = false →
    (markUsed gts o).countP (fun g => g.used) = gts.countP (fun g => g.used) + 1 := by
  induction gts with
  | nil => intro o ho; simp at ho
  | cons g gs ih =>
      intro o ho hu
      match o with
      | 0 =>
          show ((⟨g.image, g.box, true⟩ : GtRecord) :: gs).countP _ = _
          rw [List.countP_cons, List.countP_cons]
          rw [List.getElem_cons_zero] at hu
          simp [hu]
      | o + 1 =>
          show (g :: markUsed gs o).countP _ = _
          rw [List.countP_cons, List.countP_cons]
          rw [List.getElem_cons_succ] at hu
          rw [ih o (by simpa using ho) hu]
          omega

theorem markUsed_getElem_self (gts : List GtRecord) (o : ℕ) (ho : o < gts.length)
    (ho' : o < (markUsed gts o).length) :
    (markUsed gts o)[o] = ⟨gts[o].image, gts[o].box, true⟩ := by
  have h1 := markUsed_self gts o ho
  rw [List.getElem?_eq_getElem ho'] at h1
  injection h1

theorem markUsed_getElem_ne (gts : List GtRecord) (o i : ℕ) (hi : i < gts.length)
    (hi' : i < (markUsed gts o).length) (hne : i ≠ o) :
    (markUsed gts o)[i] = gts[i] := by
  have h1 := markUsed_getElem? gts o i
  rw [if_neg hne, List.getElem?_eq_getElem hi, List.getElem?_eq_getElem hi'] at h1
  injection h1

theorem assignLoop_countP (thr : ℚ) : ∀ (ps : List PredRecord) (gts : List GtRecord),
    ((assignLoop thr gts ps).1).countP (fun g => g.used) =
      gts.countP (fun g => g.used) +
        (assignLoop thr gts ps).2.countP (fun x => x.isSome) := by
  intro ps
  induction ps with
  | nil => intro gts; simp [assignLoop]
  | cons p ps ih =>
      intro gts
      rw [assignLoop_cons]
      rcases assignStep_char gts p thr with ⟨hstep, -⟩ | ⟨o, ho, hstep, helig, -⟩
      · rw [hstep]
        simp only [List.countP_cons]
        rw [ih gts]
        simp
      · rw [hstep]
        simp only [List.countP_cons]
        rw [ih (markUsed gts o), markUsed_countP gts o ho helig.1]
        simp
        omega

theorem assignLoop_length (thr : ℚ) : ∀ (ps : List PredRecord) (gts : List GtRecord),
    (assignLoop thr gts ps).1.length = gts.length := by
  intro ps
  induction ps with
  | nil => intro gts; rfl
  | cons p ps ih =>
      intro gts
      rw [assignLoop_cons]
      rcases assignStep_char gts p thr with ⟨hstep, -⟩ | ⟨o, ho, hstep, -⟩
      · rw [hstep]
        exact ih gts
      · rw [hstep]
        show (assignLoop thr (markUsed gts o) ps).1.length = gts.length
        rw [ih (markUsed gts o), markUsed_length]

/-- Pointwise relation between the matching states of two runs over the
same ground-truth data: records agree on image and geometry, and every
record already `'used'` in the first state is `'used'` in the second. -/
def gtLe (a b : GtRecord) : Prop :=
  a.image = b.image ∧ a.box = b.box ∧ (a.used = true → b.used = true)

theorem forall₂_gtLe_refl (l : List GtRecord) : List.Forall₂ gtLe l l := by
  induction l with
  | nil => exact List.Forall₂.nil
  | cons g gs ih => exact List.Forall₂.cons ⟨rfl, rfl, fun h => h⟩ ih

theorem forall₂_gtLe_get (A B : List GtRecord) (h : List.Forall₂ gtLe A B) :
    A.length = B.length ∧ ∀ i (h1 : i < A.length) (h2 : i < B.length), gtLe A[i] B[i] := by
  have hg := List.forall₂_iff_get.mp h
  refine ⟨hg.1, ?_⟩
  intro i h1 h2
  have := hg.2 i h1 h2
  simpa [List.get_eq_getElem] using this

theorem forall₂_gtLe_of_get (A B : List GtRecord) (hlen : A.length = B.length)
    (h : ∀ i (h1 : i < A.length) (h2 : i < B.length), gtLe A[i] B[i]) :
    List.Forall₂ gtLe A B := by
  apply List.forall₂_iff_get.mpr
  refine ⟨hlen, ?_⟩
  intro i h1 h2
  simpa [List.get_eq_getElem] using h i h1 h2

theorem forall₂_gtLe_markUsed_right (A B : List GtRecord) (o : ℕ)
    (h : List.Forall₂ gtLe A B) : List.Forall₂ gtLe A (markUsed B o) := by
  obtain ⟨hlen, hpt⟩ := forall₂_gtLe_get A B h
  apply forall₂_gtLe_of_get
  · rw [hlen, markUsed_length]
  · intro i h1 h2
    have hiB : i < B.length := by rw [← markUsed_length B o]; exact h2
    by_cases hio : i = o
    · subst hio
      rw [markUsed_getElem_self B i hiB h2]
      obtain ⟨him, hbox, -⟩ := hpt i h1 hiB
      exact ⟨him, hbox, fun _ => rfl⟩
    · rw [markUsed_getElem_ne B o i hiB h2 hio]
      exact hpt i h1 hiB

theorem forall₂_gtLe_markUsed_left (A B : List GtRecord) (o : ℕ)
    (hoA : o < A.length) (hoB : o < B.length)
    (h : List.Forall₂ gtLe A B) (hBu : B[o].used = true) :
    List.Forall₂ gtLe (markUsed A o) B := by
  obtain ⟨hlen, hpt⟩ := forall₂_gtLe_get A B h
  apply forall₂_gtLe_of_get
  · rw [markUsed_length, hlen]
  · intro i h1 h2
    have hiA : i < A.length := by rw [← markUsed_length A o]; exact h1
    by_cases hio : i = o
    · subst hio
      rw [markUsed_getElem_self A i hiA h1]
      obtain ⟨him, hbox, -⟩ := hpt i hiA h2
      exact ⟨him, hbox, fun _ => hBu⟩
    · rw [markUsed_getElem_ne A o i hiA h1 hio]
      exact hpt i hiA h2

theorem forall₂_gtLe_markUsed_both (A B : List GtRecord) (o : ℕ)
    (h : List.Forall₂ gtLe A B) :
    List.Forall₂ gtLe (markUsed A o) (markUsed B o) := by
  obtain ⟨hlen, hpt⟩ := forall₂_gtLe_get A B h
  apply forall₂_gtLe_of_get
  · rw [markUsed_length, markUsed_length, hlen]
  · intro i h1 h2
    have hiA : i < A.length := by rw [← markUsed_length A o]; exact h1
    have hiB : i < B.length := by rw [← markUsed_length B o]; exact h2
    by_cases hio : i = o
    · subst hio
      rw [markUsed_getElem_self A i hiA h1, markUsed_getElem_self B i hiB h2]
      obtain ⟨him, hbox, -⟩ := hpt i hiA hiB
      exact ⟨him, hbox, fun _ => rfl⟩
    · rw [markUsed_getElem_ne A o i hiA h1 hio, markUsed_getElem_ne B o i hiB h2 hio]
      exact hpt i hiA hiB

theorem assignStep_mono (A B : List GtRecord) (p : PredRecord) (t1 t2 : ℚ)
    (ht : t1 ≤ t2) (hAB : List.Forall₂ gtLe A B) :
    List.Forall₂ gtLe (assignStep A p t2).1 (assignStep B p t1).1 := by
  obtain ⟨hlen, hpt⟩ := forall₂_gtLe_get A B hAB
  rcases assignStep_char A p t2 with ⟨hsA, -⟩ |
    ⟨oa, hoa, hsA, heligA, hposA, hthrA, hmaxA, hbefA⟩
  · rw [hsA]
    rcases assignStep_char B p t1 with ⟨hsB, -⟩ | ⟨ob, hob, hsB, -⟩
    · rw [hsB]; exact hAB
    · rw [hsB]
      exact forall₂_gtLe_markUsed_right A B ob hAB
  · rw [hsA]
    have hoaB : oa < B.length := by omega
    by_cases hBu : B[oa].used = true
    · rcases assignStep_char B p t1 with ⟨hsB, -⟩ | ⟨ob, hob, hsB, -⟩
      · rw [hsB]
        exact forall₂_gtLe_markUsed_left A B oa hoa hoaB hAB hBu
      · rw [hsB]
        exact forall₂_gtLe_markUsed_right _ B ob
          (forall₂_gtLe_markUsed_left A B oa hoa hoaB hAB hBu)
    · have hBu' : B[oa].used = false := by
        cases hcase : B[oa].used
        · rfl
        · exact absurd hcase hBu
      obtain ⟨himA, hboxA, -⟩ := hpt oa hoa hoaB
      have heligB : elig p B[oa] := ⟨hBu', by rw [← himA]; exact heligA.2⟩
      have hiouB : box_iou p.box B[oa].box = box_iou p.box A[oa].box := by rw [hboxA]
      rcases assignStep_char B p t1 with ⟨hsB, hallB⟩ |
        ⟨ob, hob, hsB, heligB2, hposB, hthrB, hmaxB, hbefB⟩
      · exfalso
        rcases hallB oa hoaB heligB with hc | hc
        · rw [hiouB] at hc
          exact absurd hposA (not_lt.mpr hc)
        · rw [hiouB] at hc
          exact absurd hthrA (not_le.mpr (lt_of_lt_of_le hc ht))
      · have hobA : ob < A.length := by omega
        obtain ⟨himB, hboxB, husedB⟩ := hpt ob hobA hob
        have hAobUnused : A[ob].used = false := by
          cases hcase : A[ob].used
          · rfl
          · have hcon := husedB hcase
            rw [heligB2.1] at hcon
            exact absurd hcon (by simp)
        have heligAob : elig p A[ob] := ⟨hAobUnused, by rw [himB]; exact heligB2.2⟩
        have hiouOb : box_iou p.box B[ob].box = box_iou p.box A[ob].box := by rw [hboxB]
        have hle1 : box_iou p.box A[ob].box ≤ box_iou p.box A[oa].box :=
          hmaxA ob hobA heligAob
        have hle2 : box_iou p.box A[oa].box ≤ box_iou p.box A[ob].box := by
          have hm := hmaxB oa hoaB heligB
          rw [hiouB, hiouOb] at hm
          exact hm
        have hioueq : box_iou p.box A[oa].box = box_iou p.box A[ob].box :=
          le_antisymm hle2 hle1
        have hobeq : ob = oa := by
          rcases Nat.lt_trichotomy ob oa with hlt | heq | hgt
          · exfalso
            have hb := hbefA ob hobA hlt heligAob
            rw [hioueq] at hb
            exact absurd hb (lt_irrefl _)
          · exact heq
          · exfalso
            have hb := hbefB oa hoaB hgt heligB
            rw [hiouB, hiouOb, hioueq] at hb
            exact absurd hb (lt_irrefl _)
        subst hobeq
        rw [hsB]
        exact forall₂_gtLe_markUsed_both A B ob hAB

theorem assignLoop_mono (t1 t2 : ℚ) (ht : t1 ≤ t2) :
    ∀ (ps : List PredRecord) (A B : List GtRecord), List.Forall₂ gtLe A B →
      List.Forall₂ gtLe (assignLoop t2 A ps).1 (assignLoop t1 B ps).1 := by
  intro ps
  induction ps with
  | nil => intro A B h; exact h
  | cons p ps ih =>
      intro A B h
      rw [assignLoop_cons, assignLoop_cons]
      exact ih _ _ (assignStep_mono A B p t1 t2 ht h)

theorem forall₂_gtLe_countP (A B : List GtRecord) (h : List.Forall₂ gtLe A B) :
    A.countP (fun g => g.used) ≤ B.countP (fun g => g.used) := by
  induction h with
  | nil => exact le_refl 0
  | cons hab hrest ih =>
      rw [List.countP_cons, List.countP_cons]
      rename_i a b _ _
      cases hcase : a.used <;> cases hcase2 : b.used
      · simpa using ih
      · simp
        omega
      · exact absurd (hab.2.2 hcase) (by simp [hcase2])
      · simp
        omega

theorem initFlags_countP (gtb : List GtBase) :
    (initFlags gtb).countP (fun g => g.used) = 0 := by
  induction gtb with
  | nil => rfl
  | cons b bs ih =>
      show List.countP _ (⟨b.image, b.box, false⟩ :: initFlags bs) = 0
      rw [List.countP_cons]
      simp only [ih]
      rfl

/-- C7: for a fixed ground-truth set and a fixed score-ordered prediction
list, raising the IoU threshold used by the matching pass can only
decrease or preserve the total number of matched predictions (true
positives). -/
theorem true_positive_count_antitone (gtb : List GtBase) (preds : List PredRecord)
    (t1 t2 : ℚ) (ht : t1 ≤ t2) :
    (assignLoop t2 (initFlags gtb) preds).2.countP (fun x => x.isSome) ≤
      (assignLoop t1 (initFlags gtb) preds).2.countP (fun x => x.isSome) := by
  have h2 := assignLoop_countP t2 preds (initFlags gtb)
  have h1 := assignLoop_countP t1 preds (initFlags gtb)
  have hle := forall₂_gtLe_countP _ _
    (assignLoop_mono t1 t2 ht preds (initFlags gtb) (initFlags gtb)
      (forall₂_gtLe_refl (initFlags gtb)))
  rw [initFlags_countP] at h1 h2
  omega

/-- Witness for C7 at thresholds `1/2 ≤ 3/4` on a one-box instance. -/
theorem true_positive_count_antitone_witness :
    (assignLoop (3/4) (initFlags [⟨0, ⟨0, 0, 2, 2⟩⟩])
        [⟨0, ⟨0, 0, 2, 2⟩, 1⟩]).2.countP (fun x => x.isSome) ≤
      (assignLoop (1/2) (initFlags [⟨0, ⟨0, 0, 2, 2⟩⟩])
        [⟨0, ⟨0, 0, 2, 2⟩, 1⟩]).2.countP (fun x => x.isSome) :=
  true_positive_count_antitone [⟨0, ⟨0, 0, 2, 2⟩⟩] [⟨0, ⟨0, 0, 2, 2⟩, 1⟩]
    (1/2) (3/4) (by norm_num)

theorem cumsum_chain_bounds (l : List ℕ) : ∀ a : ℕ,
    List.Chain' (· ≤ ·) (cumsum l a) ∧ ∀ z ∈ cumsum l a, a ≤ z ∧ z ≤ a + l.sum := by
  induction l with
  | nil =>
      intro a
      exact ⟨List.chain'_nil, by intro z hz; simp [cumsum] at hz⟩
  | cons x xs ih =>
      intro a
      obtain ⟨hchain, hbound⟩ := ih (a + x)
      constructor
      · show List.Chain' _ ((x + a) :: cumsum xs (a + x))
        rw [List.chain'_cons']
        refine ⟨?_, hchain⟩
        intro y hy
        have hym : y ∈ cumsum xs (a + x) := by
          cases hc : cumsum xs (a + x) with
          | nil => rw [hc] at hy; simp at hy
          | cons z t =>
              rw [hc] at hy
              simp only [List.head?_cons, Option.mem_def, Option.some.injEq] at hy
              rw [hy]
              exact List.mem_cons_self y t
        have := (hbound y hym).1
        omega
      · intro z hz
        rcases List.mem_cons.mp hz with hz | hz
        · subst hz
          simp
          omega
        · have := hbound z hz
          simp
          omega

theorem sum_map_ite (bs : List Bool) :
    (bs.map (fun b => if b then 1 else 0)).sum = bs.countP (fun b => b) := by
  induction bs with
  | nil => rfl
  | cons b bs ih =>
      rw [List.map_cons, List.sum_cons, List.countP_cons, ih]
      cases b <;> simp <;> omega

theorem precList_mem_bounds : ∀ (ts fs : List ℕ) (x : ℚ), x ∈ precList ts fs →
    0 ≤ x ∧ x ≤ 1 := by
  intro ts
  induction ts with
  | nil => intro fs x hx; simp [precList] at hx
  | cons t ts ih =>
      intro fs x hx
      cases fs with
      | nil => simp [precList] at hx
      | cons f fs =>
          rcases List.mem_cons.mp hx with hx | hx
          · subst hx
            constructor
            · exact div_nonneg (by positivity) (by positivity)
            · rcases eq_or_lt_of_le (by positivity : (0 : ℚ) ≤ (f : ℚ) + (t : ℚ)) with h0 | h0
              · rw [← h0, div_zero]
                norm_num
              · rw [div_le_one h0]
                have : (0 : ℚ) ≤ (f : ℚ) := by positivity
                linarith
          · exact ih fs x hx

theorem envelope_mem_bounds : ∀ (l : List ℚ), (∀ y ∈ l, 0 ≤ y ∧ y ≤ 1) →
    ∀ x ∈ envelope l, 0 ≤ x ∧ x ≤ 1 := by
  intro l
  induction l with
  | nil => intro _ x hx; simp [envelope] at hx
  | cons a as ih =>
      intro hb x hx
      have hba : 0 ≤ a ∧ a ≤ 1 := hb a (List.mem_cons_self a as)
      have hbs : ∀ y ∈ as, 0 ≤ y ∧ y ≤ 1 := fun y hy => hb y (List.mem_cons_of_mem a hy)
      unfold envelope at hx
      cases hc : envelope as with
      | nil =>
          rw [hc] at hx
          rcases List.mem_cons.mp hx with hx | hx
          · subst hx; exact hba
          · simp at hx
      | cons y t =>
          rw [hc] at hx
          rcases List.mem_cons.mp hx with hx | hx
          · subst hx
            have hy : 0 ≤ y ∧ y ≤ 1 := by
              apply ih hbs
              rw [hc]
              exact List.mem_cons_self y t
            rw [qmax_eq_max]
            constructor
            · exact le_max_of_le_left hba.1
            · exact max_le hba.2 hy.2
          · apply ih hbs
            rw [hc]
            exact hx

theorem mem_of_getLast?_mem (l : List ℚ) (a : ℚ) (h : a ∈ l.getLast?) : a ∈ l := by
  obtain ⟨hne, heq⟩ := List.mem_getLast?_eq_getLast h
  rw [heq]
  exact List.getLast_mem hne

theorem ap_sum_bounds : ∀ (l m : List ℚ), l.length = m.length →
    List.Chain' (· ≤ ·) l → (∀ q ∈ m, 0 ≤ q ∧ q ≤ 1) →
    0 ≤ ap_sum l m ∧ ap_sum l m ≤ (l.getLast?.getD 0) - (l.headD 0) := by
  intro l
  induction l with
  | nil => intro m _ _ _; simp [ap_sum]
  | cons a l ih =>
      intro m hm hchain hq
      cases l with
      | nil =>
          match m, hm with
          | [p], _ => simp [ap_sum]
      | cons b rs =>
          match m, hm with
          | p :: q :: qs, hm =>
              have hab : a ≤ b := (List.chain'_cons.mp hchain).1
              have hchain' : List.Chain' (· ≤ ·) (b :: rs) := (List.chain'_cons.mp hchain).2
              have hq' : ∀ x ∈ q :: qs, 0 ≤ x ∧ x ≤ 1 :=
                fun x hx => hq x (List.mem_cons_of_mem p hx)
              have hqb : 0 ≤ q ∧ q ≤ 1 := hq' q (List.mem_cons_self q qs)
              obtain ⟨ih0, ih1⟩ := ih (q :: qs) (by simpa using hm) hchain' hq'
              have hterm0 : 0 ≤ (if b ≠ a then (b - a) * q else 0) := by
                by_cases hba : b ≠ a
                · rw [if_pos hba]
                  exact mul_nonneg (by linarith) hqb.1
                · rw [if_neg hba]
              have hterm1 : (if b ≠ a then (b - a) * q else 0) ≤ b - a := by
                by_cases hba : b ≠ a
                · rw [if_pos hba]
                  exact mul_le_of_le_one_right (by linarith) hqb.2
                · rw [if_neg hba]
                  push_neg at hba
                  rw [hba]
                  norm_num
              show 0 ≤ (if b ≠ a then (b - a) * q else 0) + ap_sum (b :: rs) (q :: qs) ∧ _
              constructor
              · linarith
              · have hlast : (a :: b :: rs).getLast?.getD 0 = (b :: rs).getLast?.getD 0 := by
                  rw [List.getLast?_cons_cons]
                have hhead : (b :: rs).headD 0 = b := rfl
                rw [hlast]
                show (if b ≠ a then (b - a) * q else 0) + ap_sum (b :: rs) (q :: qs) ≤ _
                rw [hhead] at ih1
                have hheadA : (a :: b :: rs).headD 0 = a := rfl
                rw [hheadA]
                linarith

theorem chain_zero_append_one (rec : List ℚ) (hchain : List.Chain' (· ≤ ·) rec)
    (hrec : ∀ x ∈ rec, 0 ≤ x ∧ x ≤ 1) :
    List.Chain' (· ≤ ·) ((0 : ℚ) :: rec ++ [1]) := by
  rw [List.chain'_append]
  refine ⟨?_, List.chain'_singleton 1, ?_⟩
  · rw [List.chain'_cons']
    refine ⟨?_, hchain⟩
    intro y hy
    cases rec with
    | nil => simp at hy
    | cons x xs =>
        simp only [List.head?_cons, Option.mem_def, Option.some.injEq] at hy
        rw [← hy]
        exact (hrec x (List.mem_cons_self x xs)).1
  · intro x hx y hy
    simp only [List.head?_cons, Option.mem_def, Option.some.injEq] at hy
    rw [← hy]
    cases rec with
    | nil =>
        simp only [List.getLast?_singleton, Option.mem_def, Option.some.injEq] at hx
        rw [← hx]
        norm_num
    | cons a as =>
        rw [List.getLast?_cons_cons] at hx
        exact (hrec x (mem_of_getLast?_mem (a :: as) x hx)).2

theorem voc_ap_bounds (rec prec : List ℚ) (hlen : rec.length = prec.length)
    (hchain : List.Chain' (· ≤ ·) rec) (hrec : ∀ x ∈ rec, 0 ≤ x ∧ x ≤ 1)
    (hprec : ∀ x ∈ prec, 0 ≤ x ∧ x ≤ 1) :
    0 ≤ (voc_ap rec prec).1.1 ∧ (voc_ap rec prec).1.1 ≤ 1 := by
  have hshow : (voc_ap rec prec).1.1 =
      ap_sum ((0 : ℚ) :: rec ++ [1]) (envelope ((0 : ℚ) :: prec ++ [0])) := by
    show ap_sum ((rec.insertIdx 0 0) ++ [1]) (envelope ((prec.insertIdx 0 0) ++ [0])) = _
    rw [List.insertIdx_zero, List.insertIdx_zero]
  rw [hshow]
  have hmb : ∀ x ∈ envelope ((0 : ℚ) :: prec ++ [0]), 0 ≤ x ∧ x ≤ 1 := by
    apply envelope_mem_bounds
    intro y hy
    rcases List.mem_cons.mp hy with hy | hy
    · subst hy; norm_num
    · rcases List.mem_append.mp hy with hy | hy
      · exact hprec y hy
      · simp only [List.mem_singleton] at hy
        subst hy; norm_num
  have hlen2 : ((0 : ℚ) :: rec ++ [1]).length = (envelope ((0 : ℚ) :: prec ++ [0])).length := by
    rw [envelope_length]
    simp [hlen]
  obtain ⟨hb0, hb1⟩ := ap_sum_bounds ((0 : ℚ) :: rec ++ [1]) (envelope ((0 : ℚ) :: prec ++ [0]))
    hlen2 (chain_zero_append_one rec hchain hrec) hmb
  refine ⟨hb0, ?_⟩
  have hlast : ((0 : ℚ) :: rec ++ [1]).getLast? = some 1 := by
    rw [show (0 : ℚ) :: rec ++ [1] = ((0 : ℚ) :: rec) ++ [1] from rfl]
    exact List.getLast?_concat _
  rw [hlast] at hb1
  have hhead : ((0 : ℚ) :: rec ++ [1]).headD 0 = 0 := rfl
  rw [hhead] at hb1
  simpa using hb1

/-- C6: for a class with at least one ground-truth record and predictions
over well-formed (ordered, non-degenerate) boxes, the AP value produced
by the `calc_AP` pipeline lies in `[0, 1]`. -/
theorem calc_AP_bounded (gtb : List GtBase) (preds : List PredRecord) (hgt : gtb ≠ [])
    (hwfg : ∀ g ∈ gtb, g.box.xmin < g.box.xmax ∧ g.box.ymin < g.box.ymax)
    (hwfp : ∀ p ∈ preds, p.box.xmin < p.box.xmax ∧ p.box.ymin < p.box.ymax) :
    0 ≤ (calc_AP gtb preds).1 ∧ (calc_AP gtb preds).1 ≤ 1 := by
  have hrlen : (assignLoop (1/2) (initFlags gtb) preds).1.length = gtb.length := by
    rw [assignLoop_length, initFlags, List.length_map]
  have hN : 0 < gtb.length := List.length_pos.mpr hgt
  have hn : (0 : ℚ) < ((assignLoop (1/2) (initFlags gtb) preds).1.length : ℚ) := by
    rw [hrlen]
    exact_mod_cast hN
  have htpsum : (((assignLoop (1/2) (initFlags gtb) preds).2.map Option.isSome).map
      (fun b => if b then 1 else 0)).sum ≤ gtb.length := by
    rw [sum_map_ite, List.countP_map]
    have hco : List.countP ((fun b => b) ∘ Option.isSome)
        (assignLoop (1/2) (initFlags gtb) preds).2 =
        List.countP (fun x => x.isSome) (assignLoop (1/2) (initFlags gtb) preds).2 := rfl
    rw [hco]
    have hcount := assignLoop_countP (1/2) preds (initFlags gtb)
    rw [initFlags_countP] at hcount
    have hle := List.countP_le_length (fun g => g.used)
      (l := (assignLoop (1/2) (initFlags gtb) preds).1)
    rw [hrlen] at hle
    omega
  simp only [calc_AP]
  apply voc_ap_bounds
  · show (divAll (cumsum _ 0) _).length = (precList (cumsum _ 0) (cumsum _ 0)).length
    rw [divAll_length, precList_length, cumsum_length, cumsum_length,
      List.length_map, List.length_map]
    simp
  · show List.Chain' _ (divAll (cumsum _ 0) _)
    rw [divAll]
    rw [List.chain'_map]
    apply List.Chain'.imp _ (cumsum_chain_bounds _ 0).1
    intro a b hab
    exact (div_le_div_right hn).mpr (by exact_mod_cast hab)
  · intro x hx
    rw [show (get_rec_prec (((assignLoop (1/2) (initFlags gtb) preds).2.map Option.isSome).map
        (fun b => if b then 1 else 0))
        (((assignLoop (1/2) (initFlags gtb) preds).2.map Option.isSome).map
        (fun b => if b then 0 else 1))
        (assignLoop (1/2) (initFlags gtb) preds).1).1 =
      divAll (cumsum (((assignLoop (1/2) (initFlags gtb) preds).2.map Option.isSome).map
        (fun b => if b then 1 else 0)) 0)
        (((assignLoop (1/2) (initFlags gtb) preds).1.length : ℕ) : ℚ) from rfl, divAll] at hx
    obtain ⟨t, ht, rfl⟩ := List.mem_map.mp hx
    constructor
    · exact div_nonneg (by positivity) (le_of_lt hn)
    · rw [div_le_one hn]
      have hts := ((cumsum_chain_bounds _ 0).2 t ht).2
      have : t ≤ gtb.length := by omega
      rw [hrlen]
      exact_mod_cast this
  · intro x hx
    exact precList_mem_bounds _ _ x hx

/-- Witness for C6: one ground-truth box and one exact prediction. -/
theorem calc_AP_bounded_witness :
    0 ≤ (calc_AP [⟨0, ⟨0, 0, 2, 2⟩⟩] [⟨0, ⟨0, 0, 2, 2⟩, 1⟩]).1 ∧
      (calc_AP [⟨0, ⟨0, 0, 2, 2⟩⟩] [⟨0, ⟨0, 0, 2, 2⟩, 1⟩]).1 ≤ 1 :=
  calc_AP_bounded [⟨0, ⟨0, 0, 2, 2⟩⟩] [⟨0, ⟨0, 0, 2, 2⟩, 1⟩] (by simp)
    (by intro g hg; simp at hg; subst hg; norm_num)
    (by intro p hp; simp at hp; subst hp; norm_num)
